import Mathlib

/-!
Verification development for the SoftBank daily-inventory simulator
(`SoftBank_StockCalculate.py`).

The development shallowly embeds the two computational phases of the script:

* `calculate_inventory`: builds a dense (date × part) balance matrix over the
  181-day window `[start, start + 180]` from three tabular inputs
  (product starting inventory, factory shipments, customer orders);
* the alias-resolution section of `export_to_excel`: drops excluded part
  columns, then folds one-to-one rules, then many-to-one rules grouped and
  sorted by main part (mirroring the pandas `groupby` sort).

Quantities are embedded as `Int`; part numbers as `Nat` keys; dates as `Int`
day numbers (so dates before the window start are representable).  A balance
matrix is an association list from part number to its value series over the
date axis, mirroring a pandas `DataFrame` with the date axis implicit.
-/

set_option maxRecDepth 10000

abbrev PartNo := Nat

abbrev Series := List Int

/-- A balance matrix: one named column per part, each a series over the
(implicit, shared) date axis.  Column order is significant, as in pandas. -/
abbrev StockMatrix := List (PartNo × Series)

/-- The `Month-End_SAP_Inventory` cell of a product row: either missing
(pandas `NaN`, removed by `dropna`), present but not convertible by
`float(...)` (raises, caught and replaced by 0), or a numeric value. -/
inductive QtyField where
  | missing
  | nonNumeric
  | num (v : Int)
  deriving DecidableEq

/-- A row of `SoftBank_Data_Productinfo` as selected by `fetch_data`
(the `Model` column is not used by the balance computation). -/
structure ProductRec where
  part : PartNo
  qty : QtyField
  deriving DecidableEq

/-- A row of `SoftBank_Data_FactoryShipment`: incoming stock of `qty`
units of `part` on day `date` (`eta_FLTC` truncated to a calendar date). -/
structure FactoryRec where
  part : PartNo
  date : Int
  qty : Int
  deriving DecidableEq

/-- A row of `SoftBank_Data_Orderinfo`: outgoing demand of `qty` units of
`product` on day `date`, with an optional `Quotation_status` (`none`
embeds a SQL NULL / pandas `NaN` status). -/
structure OrderRec where
  product : PartNo
  date : Int
  qty : Int
  status : Option String
  deriving DecidableEq

/-- The status filter of `calculate_inventory`:
`order_data['Quotation_status'].isin(['quotation','cancel','confirming','double cancel'])`.
A missing status is not in the list, so it is not excluded. -/
def statusExcluded : Option String → Bool
  | none => false
  | some s => s == "quotation" || s == "cancel" || s == "confirming" || s == "double cancel"

/-- The order filter: keep rows with `Shipment_Date >= start_date` whose
status is not in the excluded set. -/
def filteredOrders (start : Int) (orders : List OrderRec) : List OrderRec :=
  orders.filter (fun r => decide (start ≤ r.date) && !statusExcluded r.status)

/-- Helper for `pandas.unique`: first occurrence of each key, input order. -/
def uniqueAux (seen : List PartNo) : List PartNo → List PartNo
  | [] => []
  | x :: xs => if x ∈ seen then uniqueAux seen xs else x :: uniqueAux (x :: seen) xs

/-- `products = product_data['Part_No'].unique()`. -/
def knownParts (rows : List ProductRec) : List PartNo :=
  uniqueAux [] (rows.map ProductRec.part)

/-- `factory_agg` cell: the per-(date, part) sum of shipment quantities, for
rows whose part is a known part (`isin(products)`), as produced by the
`groupby(['eta_FLTC','Part_No']).sum().unstack()` / `reindex` pipeline. -/
def inbound (products : List PartNo) (factory : List FactoryRec) (d : Int) (p : PartNo) : Int :=
  (((factory.filter (fun r => products.contains r.part)).filter
      (fun r => r.part == p && r.date == d)).map FactoryRec.qty).sum

/-- `order_agg` cell: the per-(date, part) sum of surviving order
quantities, as produced by the
`groupby(['Shipment_Date','Product_Name']).sum().unstack()` / `reindex`
pipeline applied to the filtered orders. -/
def outbound (start : Int) (orders : List OrderRec) (d : Int) (p : PartNo) : Int :=
  (((filteredOrders start orders).filter
      (fun r => r.product == p && r.date == d)).map OrderRec.qty).sum

/-- Helper for `drop_duplicates(subset=['Part_No'], keep='first')`. -/
def dropDupFirst (seen : List PartNo) : List ProductRec → List ProductRec
  | [] => []
  | r :: rs =>
    if r.part ∈ seen then dropDupFirst seen rs
    else r :: dropDupFirst (r.part :: seen) rs

/-- `clean_product_data`: drop rows whose inventory quantity is missing
(`dropna(subset=['Part_No','Month-End_SAP_Inventory'])`), then keep the
first remaining row per part number. -/
def cleanProductData (rows : List ProductRec) : List ProductRec :=
  dropDupFirst [] (rows.filter (fun r => decide (r.qty ≠ QtyField.missing)))

/-- First matching row lookup (`matching_rows.iloc[0]`). -/
def firstQtyFor : List ProductRec → PartNo → Option QtyField
  | [], _ => none
  | r :: rs, p => if r.part = p then some r.qty else firstQtyFor rs p

/-- `float(initial_qty)` with the `try/except` fallback: a numeric value is
kept, a non-numeric one degrades to 0. -/
def qtyValue : QtyField → Int
  | QtyField.num v => v
  | _ => 0

/-- The starting inventory written into row `start_date` for part `p`:
the first row of `clean_product_data` matching `p` (0 when there is none,
or when `float` fails on its quantity). -/
def initialQty (rows : List ProductRec) (p : PartNo) : Int :=
  match firstQtyFor (cleanProductData rows) p with
  | some q => qtyValue q
  | none => 0

/-- The roll-forward loop of `calculate_inventory`: day 0 starts from the
initial inventory, every later day from the previous day, each adjusted by
that day's inbound and outbound aggregates.  `i` is the day offset from
`start_date`. -/
def balance (start : Int) (products : List PartNo) (prodRows : List ProductRec)
    (factory : List FactoryRec) (orders : List OrderRec) : Nat → PartNo → Int
  | 0, p =>
    initialQty prodRows p + inbound products factory start p - outbound start orders start p
  | i + 1, p =>
    balance start products prodRows factory orders i p
      + inbound products factory (start + (i : Int) + 1) p
      - outbound start orders (start + (i : Int) + 1) p

/-- `pd.date_range(start=start_date, end=start_date + timedelta(days=180))`:
every calendar day from `start` through `start + 180` inclusive. -/
def dateRange (start : Int) : List Int :=
  (List.range 181).map (fun i : Nat => start + (i : Int))

/-- One column of the computed inventory DataFrame: the balances of part
`p` on each day of the window, in date order. -/
def balanceSeries (start : Int) (products : List PartNo) (prodRows : List ProductRec)
    (factory : List FactoryRec) (orders : List OrderRec) (p : PartNo) : Series :=
  (List.range 181).map (fun i => balance start products prodRows factory orders i p)

/-- The inventory DataFrame returned by `calculate_inventory`, viewed
column-wise: one column per known part, in `unique()` order. -/
def inventoryMatrix (start : Int) (prodRows : List ProductRec)
    (factory : List FactoryRec) (orders : List OrderRec) : StockMatrix :=
  (knownParts prodRows).map (fun p =>
    (p, balanceSeries start (knownParts prodRows) prodRows factory orders p))

/-- A calendar date, for the window-start computation
`datetime.today().replace(day=1)`. -/
structure CalDate where
  year : Int
  month : Nat
  day : Nat
  deriving DecidableEq

/-- `today.replace(day=1)`: the first day of the current calendar month. -/
def monthStart (today : CalDate) : CalDate := { today with day := 1 }

/-! ## Alias resolution (`export_to_excel`) -/

/-- Column lookup by label, first match (pandas label indexing). -/
def getCol : StockMatrix → PartNo → Option Series
  | [], _ => none
  | c :: m, p => if c.1 = p then some c.2 else getCol m p

/-- `p in inventory.columns`. -/
def hasCol (m : StockMatrix) (p : PartNo) : Bool :=
  (getCol m p).isSome

/-- `inventory.drop(columns=[p])`. -/
def dropCol : StockMatrix → PartNo → StockMatrix
  | [], _ => []
  | c :: m, p => if c.1 = p then dropCol m p else c :: dropCol m p

/-- In-place column update `inventory[p] = s` for a present label `p`. -/
def setCol : StockMatrix → PartNo → Series → StockMatrix
  | [], _, _ => []
  | c :: m, p, s => if c.1 = p then (p, s) :: setCol m p s else c :: setCol m p s

/-- `inventory.rename(columns={a: b})`. -/
def renameCol : StockMatrix → PartNo → PartNo → StockMatrix
  | [], _, _ => []
  | c :: m, a, b => if c.1 = a then (b, c.2) :: renameCol m a b else c :: renameCol m a b

/-- `inventory[p] = s` for an absent label `p`: pandas appends the new
column at the end. -/
def appendCol (m : StockMatrix) (p : PartNo) (s : Series) : StockMatrix :=
  m ++ [(p, s)]

/-- Elementwise series addition (`inventory[main] += inventory[free]`). -/
def addSeries (s t : Series) : Series :=
  List.zipWith (fun x y => x + y) s t

/-- The exclusion pass: drop each listed part's column (a no-op when the
column is absent, exactly as the `if part_no in inventory.columns` guard). -/
def applyExclusions (excl : List PartNo) (m : StockMatrix) : StockMatrix :=
  excl.foldl dropCol m

/-- One one-to-one rule `(free, main)`: if `free` is present, either add its
series into a present `main` or rename `free` to an absent `main`, then drop
`free` (with `errors='ignore'`). -/
def applyOneToOne (m : StockMatrix) (r : PartNo × PartNo) : StockMatrix :=
  match getCol m r.1 with
  | none => m
  | some fs =>
    match getCol m r.2 with
    | some ms => dropCol (setCol m r.2 (addSeries ms fs)) r.1
    | none => dropCol (renameCol m r.1 r.2) r.1

/-- One many-to-one merge step for alias `al` into main `mainP`: if the
alias column is present, add it into a present main or seed an absent main
with it, then drop the alias column. -/
def applyAlias (m : StockMatrix) (mainP al : PartNo) : StockMatrix :=
  match getCol m al with
  | none => m
  | some sa =>
    match getCol m mainP with
    | some ms => dropCol (setCol m mainP (addSeries ms sa)) al
    | none => dropCol (appendCol m mainP sa) al

/-- The aliases of one many-to-one group, in row order
(`group_df['Alias_Part_No']`). -/
def aliasesOf (m2o : List (PartNo × PartNo)) (mainP : PartNo) : List PartNo :=
  (m2o.filter (fun r => r.1 == mainP)).map Prod.snd

/-- The free parts folded into `mainP` by the one-to-one rules. -/
def freesOf (o2o : List (PartNo × PartNo)) (mainP : PartNo) : List PartNo :=
  (o2o.filter (fun r => r.2 == mainP)).map Prod.fst

/-- Process one many-to-one group: merge each alias in turn. -/
def applyGroup (m : StockMatrix) (mainP : PartNo) (als : List PartNo) : StockMatrix :=
  als.foldl (fun acc a => applyAlias acc mainP a) m

/-- Ascending insertion, for the `groupby` key sort. -/
def insertSorted (x : Nat) : List Nat → List Nat
  | [] => [x]
  | y :: ys => if x ≤ y then x :: y :: ys else y :: insertSorted x ys

/-- Ascending sort of group keys (`groupby` sorts keys by default). -/
def sortNat (l : List Nat) : List Nat :=
  l.foldr insertSorted []

/-- Process the groups named by `ks`, each with its aliases from `m2o`. -/
def groupsFold (m2o : List (PartNo × PartNo)) (ks : List PartNo) (m : StockMatrix) : StockMatrix :=
  ks.foldl (fun acc k => applyGroup acc k (aliasesOf m2o k)) m

/-- The many-to-one pass: `for main_part, group_df in
many_to_one_df.groupby('Main_Part_No')`, i.e. distinct main parts in
ascending key order, each group's rows in input order. -/
def applyManyToOne (m2o : List (PartNo × PartNo)) (m : StockMatrix) : StockMatrix :=
  groupsFold m2o (sortNat (m2o.map Prod.fst).dedup) m

/-- The whole alias-resolution sequence of `export_to_excel`:
exclusions, then one-to-one rules in row order, then many-to-one groups. -/
def resolveAliases (excl : List PartNo) (o2o m2o : List (PartNo × PartNo))
    (m : StockMatrix) : StockMatrix :=
  applyManyToOne m2o (o2o.foldl applyOneToOne (applyExclusions excl m))

/-! ## Derived notions used to state the properties -/

/-- Value of an optional series at index `i`, 0 when absent. -/
def optVal (o : Option Series) (i : Nat) : Int :=
  match o with
  | some s => s.getD i 0
  | none => 0

/-- Value of column `p` at date index `i`, 0 when the column is absent. -/
def colVal (m : StockMatrix) (p : PartNo) (i : Nat) : Int :=
  optVal (getCol m p) i

/-- Total contribution of a list of part columns at date index `i`. -/
def contribSum (m : StockMatrix) (ps : List PartNo) (i : Nat) : Int :=
  (ps.map (fun p => colVal m p i)).sum

/-- All parts folded into `mainP` by the rules: one-to-one frees, then
many-to-one aliases. -/
def contributorsOf (o2o m2o : List (PartNo × PartNo)) (mainP : PartNo) : List PartNo :=
  freesOf o2o mainP ++ aliasesOf m2o mainP

/-- Every column of `m` has length `L` (the shared date axis). -/
def uniformCols (L : Nat) (m : StockMatrix) : Prop :=
  ∀ c ∈ m, c.2.length = L

/-- The result of merging an optional alias column into an optional main
column, as `applyAlias` and `applyOneToOne` both do. -/
def mergeInto (om oa : Option Series) : Option Series :=
  match oa with
  | none => om
  | some sa =>
    match om with
    | some ms => some (addSeries ms sa)
    | none => some sa

/-- Spec-side reading of claim C3: the starting quantity of the very first
starting-inventory record for `p` in input order, 0 when there is no record
or that first record's quantity is missing or non-numeric. -/
def specFirstRecordQty (rows : List ProductRec) (p : PartNo) : Int :=
  match firstQtyFor rows p with
  | some q => qtyValue q
  | none => 0

/-- The starting quantity of the first record for `p` whose quantity is
present (non-missing), 0 when there is no such record or its value is
non-numeric. -/
def specFirstPresentQty (rows : List ProductRec) (p : PartNo) : Int :=
  match firstQtyFor (rows.filter (fun r => decide (r.qty ≠ QtyField.missing))) p with
  | some q => qtyValue q
  | none => 0

/-! ## Series lemmas -/

@[simp] theorem addSeries_nil_left (t : Series) : addSeries [] t = [] := rfl

@[simp] theorem addSeries_nil_right (s : Series) : addSeries s [] = [] := by
  cases s <;> rfl

@[simp] theorem addSeries_cons (x y : Int) (xs ys : Series) :
    addSeries (x :: xs) (y :: ys) = (x + y) :: addSeries xs ys := rfl

theorem length_addSeries (s t : Series) :
    (addSeries s t).length = min s.length t.length := by
  simp [addSeries]

theorem getD_addSeries (s t : Series) (i : Nat) (hs : i < s.length) (ht : i < t.length) :
    (addSeries s t).getD i 0 = s.getD i 0 + t.getD i 0 := by
  induction s generalizing t i with
  | nil => simp at hs
  | cons x xs ih =>
    cases t with
    | nil => simp at ht
    | cons y ys =>
      cases i with
      | zero => simp
      | succ j =>
        simp only [addSeries_cons, List.getD_cons_succ]
        exact ih ys j (by simpa using hs) (by simpa using ht)

theorem addSeries_comm (s t : Series) : addSeries s t = addSeries t s := by
  induction s generalizing t with
  | nil => simp
  | cons x xs ih =>
    cases t with
    | nil => simp
    | cons y ys => simp [ih, Int.add_comm]

theorem addSeries_right_comm (s a b : Series) :
    addSeries (addSeries s a) b = addSeries (addSeries s b) a := by
  induction s generalizing a b with
  | nil => simp
  | cons x xs ih =>
    cases a with
    | nil => simp
    | cons ya as =>
      cases b with
      | nil => simp
      | cons yb bs => simp [ih, Int.add_right_comm]

/-! ## Column-operation lemmas -/

@[simp] theorem getCol_nil (p : PartNo) : getCol [] p = none := rfl

theorem getCol_cons (c : PartNo × Series) (m : StockMatrix) (p : PartNo) :
    getCol (c :: m) p = if c.1 = p then some c.2 else getCol m p := rfl

theorem getCol_dropCol_self (m : StockMatrix) (p : PartNo) :
    getCol (dropCol m p) p = none := by
  induction m with
  | nil => rfl
  | cons c m ih => by_cases h : c.1 = p <;> simp [dropCol, getCol_cons, h, ih]

theorem getCol_dropCol_ne (m : StockMatrix) (p q : PartNo) (h : q ≠ p) :
    getCol (dropCol m p) q = getCol m q := by
  induction m with
  | nil => rfl
  | cons c m ih =>
    by_cases hc : c.1 = p
    · have hpq : p ≠ q := fun hq => h hq.symm
      simp [dropCol, hc, getCol_cons, hpq, ih]
    · simp [dropCol, hc, getCol_cons, ih]

theorem getCol_dropCol_none (m : StockMatrix) (p q : PartNo)
    (h : getCol m q = none) : getCol (dropCol m p) q = none := by
  by_cases hq : q = p
  · subst hq; exact getCol_dropCol_self m q
  · rw [getCol_dropCol_ne m p q hq]; exact h

theorem getCol_setCol_of_some (m : StockMatrix) (p : PartNo) (s t : Series)
    (h : getCol m p = some t) : getCol (setCol m p s) p = some s := by
  induction m with
  | nil => simp at h
  | cons c m ih =>
    by_cases hc : c.1 = p
    · simp [setCol, hc, getCol_cons]
    · rw [getCol_cons, if_neg hc] at h
      simp [setCol, hc, getCol_cons, ih h]

theorem getCol_setCol_of_none (m : StockMatrix) (p : PartNo) (s : Series)
    (h : getCol m p = none) : getCol (setCol m p s) p = none := by
  induction m with
  | nil => rfl
  | cons c m ih =>
    rw [getCol_cons] at h
    by_cases hc : c.1 = p
    · rw [if_pos hc] at h; cases h
    · rw [if_neg hc] at h
      simp [setCol, hc, getCol_cons, ih h]

theorem getCol_setCol_ne (m : StockMatrix) (p q : PartNo) (s : Series) (h : q ≠ p) :
    getCol (setCol m p s) q = getCol m q := by
  induction m with
  | nil => rfl
  | cons c m ih =>
    by_cases hc : c.1 = p
    · have hpq : p ≠ q := fun hq => h hq.symm
      simp [setCol, hc, getCol_cons, hpq, ih]
    · simp [setCol, hc, getCol_cons, ih]

theorem getCol_renameCol_from (m : StockMatrix) (a b : PartNo) (h : a ≠ b) :
    getCol (renameCol m a b) a = none := by
  induction m with
  | nil => rfl
  | cons c m ih =>
    by_cases hc : c.1 = a
    · simp [renameCol, hc, getCol_cons, Ne.symm h, ih]
    · simp [renameCol, hc, getCol_cons, ih]

theorem getCol_renameCol_to (m : StockMatrix) (a b : PartNo)
    (hb : getCol m b = none) : getCol (renameCol m a b) b = getCol m a := by
  induction m with
  | nil => rfl
  | cons c m ih =>
    rw [getCol_cons] at hb
    by_cases hcb : c.1 = b
    · rw [if_pos hcb] at hb; cases hb
    · rw [if_neg hcb] at hb
      by_cases hc : c.1 = a
      · simp [renameCol, hc, getCol_cons]
      · simp [renameCol, hc, getCol_cons, hcb, ih hb]

theorem getCol_renameCol_other (m : StockMatrix) (a b q : PartNo)
    (hqa : q ≠ a) (hqb : q ≠ b) : getCol (renameCol m a b) q = getCol m q := by
  induction m with
  | nil => rfl
  | cons c m ih =>
    by_cases hc : c.1 = a
    · have h1 : b ≠ q := fun hq => hqb hq.symm
      have h2 : a ≠ q := fun hq => hqa hq.symm
      simp [renameCol, hc, getCol_cons, h1, h2, ih]
    · simp [renameCol, hc, getCol_cons, ih]

theorem getCol_appendCol_of_none (m : StockMatrix) (p : PartNo) (s : Series)
    (h : getCol m p = none) : getCol (appendCol m p s) p = some s := by
  induction m with
  | nil => simp [appendCol, getCol_cons]
  | cons c m ih =>
    rw [getCol_cons] at h
    by_cases hc : c.1 = p
    · rw [if_pos hc] at h; cases h
    · rw [if_neg hc] at h
      simpa [appendCol, getCol_cons, hc] using ih h

theorem getCol_appendCol_ne (m : StockMatrix) (p q : PartNo) (s : Series) (h : q ≠ p) :
    getCol (appendCol m p s) q = getCol m q := by
  induction m with
  | nil =>
    show getCol [(p, s)] q = none
    simp [getCol_cons, Ne.symm h]
  | cons c m ih =>
    show getCol ((c :: m) ++ [(p, s)]) q = getCol (c :: m) q
    rw [List.cons_append, getCol_cons, getCol_cons]
    by_cases hc : c.1 = q
    · simp [hc]
    · simp only [if_neg hc]
      exact ih

/-! ## Characterizations of the two merge operations -/

theorem applyOneToOne_getCol_main (m : StockMatrix) (f M : PartNo) (h : f ≠ M) :
    getCol (applyOneToOne m (f, M)) M = mergeInto (getCol m M) (getCol m f) := by
  unfold applyOneToOne mergeInto
  cases hf : getCol m f with
  | none => rfl
  | some fs =>
    cases hM : getCol m M with
    | some ms =>
      simp only
      rw [getCol_dropCol_ne _ _ _ (Ne.symm h)]
      exact getCol_setCol_of_some m M _ ms hM
    | none =>
      simp only
      rw [getCol_dropCol_ne _ _ _ (Ne.symm h), getCol_renameCol_to m f M hM]
      exact hf

theorem applyOneToOne_getCol_free (m : StockMatrix) (f M : PartNo) (h : f ≠ M) :
    getCol (applyOneToOne m (f, M)) f = none := by
  unfold applyOneToOne
  cases hf : getCol m f with
  | none => exact hf
  | some fs =>
    cases hM : getCol m M with
    | some ms => exact getCol_dropCol_self _ f
    | none => exact getCol_dropCol_self _ f

theorem applyOneToOne_getCol_other (m : StockMatrix) (f M q : PartNo)
    (hq1 : q ≠ f) (hq2 : q ≠ M) :
    getCol (applyOneToOne m (f, M)) q = getCol m q := by
  unfold applyOneToOne
  cases hf : getCol m f with
  | none => rfl
  | some fs =>
    cases hM : getCol m M with
    | some ms =>
      simp only
      rw [getCol_dropCol_ne _ _ _ hq1, getCol_setCol_ne _ _ _ _ hq2]
    | none =>
      simp only
      rw [getCol_dropCol_ne _ _ _ hq1, getCol_renameCol_other _ _ _ _ hq1 hq2]

theorem applyOneToOne_absent (m : StockMatrix) (f M q : PartNo)
    (h : getCol m q = none) (hq : q ≠ M) :
    getCol (applyOneToOne m (f, M)) q = none := by
  by_cases hqf : q = f
  · subst hqf
    unfold applyOneToOne
    rw [h]
    exact h
  · rw [applyOneToOne_getCol_other m f M q hqf hq]; exact h

theorem applyAlias_getCol_main (m : StockMatrix) (M a : PartNo) (h : a ≠ M) :
    getCol (applyAlias m M a) M = mergeInto (getCol m M) (getCol m a) := by
  unfold applyAlias mergeInto
  cases ha : getCol m a with
  | none => rfl
  | some sa =>
    cases hM : getCol m M with
    | some ms =>
      simp only
      rw [getCol_dropCol_ne _ _ _ (Ne.symm h)]
      exact getCol_setCol_of_some m M _ ms hM
    | none =>
      simp only
      rw [getCol_dropCol_ne _ _ _ (Ne.symm h)]
      exact getCol_appendCol_of_none m M sa hM

theorem applyAlias_getCol_alias (m : StockMatrix) (M a : PartNo) (h : a ≠ M) :
    getCol (applyAlias m M a) a = none := by
  unfold applyAlias
  cases ha : getCol m a with
  | none => exact ha
  | some sa =>
    cases hM : getCol m M with
    | some ms => exact getCol_dropCol_self _ a
    | none => exact getCol_dropCol_self _ a

theorem applyAlias_getCol_other (m : StockMatrix) (M a q : PartNo)
    (hq1 : q ≠ a) (hq2 : q ≠ M) :
    getCol (applyAlias m M a) q = getCol m q := by
  unfold applyAlias
  cases ha : getCol m a with
  | none => rfl
  | some sa =>
    cases hM : getCol m M with
    | some ms =>
      simp only
      rw [getCol_dropCol_ne _ _ _ hq1, getCol_setCol_ne _ _ _ _ hq2]
    | none =>
      simp only
      rw [getCol_dropCol_ne _ _ _ hq1, getCol_appendCol_ne _ _ _ _ hq2]

theorem applyAlias_absent (m : StockMatrix) (M a q : PartNo)
    (h : getCol m q = none) (hq : q ≠ M) :
    getCol (applyAlias m M a) q = none := by
  by_cases hqa : q = a
  · subst hqa
    unfold applyAlias
    rw [h]
    exact h
  · rw [applyAlias_getCol_other m M a q hqa hq]; exact h

/-! ## Uniform column length -/

theorem length_of_getCol (L : Nat) (m : StockMatrix) (p : PartNo) (s : Series)
    (hu : uniformCols L m) (h : getCol m p = some s) : s.length = L := by
  induction m with
  | nil => simp at h
  | cons c m ih =>
    rw [getCol_cons] at h
    by_cases hc : c.1 = p
    · rw [if_pos hc] at h
      cases h
      exact hu c (List.mem_cons_self c m)
    · rw [if_neg hc] at h
      exact ih (fun d hd => hu d (List.mem_cons_of_mem c hd)) h

theorem mem_of_mem_dropCol (m : StockMatrix) (p : PartNo) (c : PartNo × Series)
    (h : c ∈ dropCol m p) : c ∈ m := by
  induction m with
  | nil => simpa [dropCol] using h
  | cons d m ih =>
    by_cases hd : d.1 = p
    · simp only [dropCol, if_pos hd] at h
      exact List.mem_cons_of_mem d (ih h)
    · simp only [dropCol, if_neg hd, List.mem_cons] at h
      cases h with
      | inl h => simp [h]
      | inr h => exact List.mem_cons_of_mem d (ih h)

theorem uniformCols_dropCol (L : Nat) (m : StockMatrix) (p : PartNo)
    (hu : uniformCols L m) : uniformCols L (dropCol m p) :=
  fun c hc => hu c (mem_of_mem_dropCol m p c hc)

theorem mem_setCol (m : StockMatrix) (p : PartNo) (s : Series) (c : PartNo × Series)
    (h : c ∈ setCol m p s) : c = (p, s) ∨ c ∈ m := by
  induction m with
  | nil => simpa [setCol] using h
  | cons d m ih =>
    by_cases hd : d.1 = p
    · simp only [setCol, if_pos hd, List.mem_cons] at h
      cases h with
      | inl h => exact Or.inl h
      | inr h =>
        cases ih h with
        | inl h2 => exact Or.inl h2
        | inr h2 => exact Or.inr (List.mem_cons_of_mem d h2)
    · simp only [setCol, if_neg hd, List.mem_cons] at h
      cases h with
      | inl h => exact Or.inr (by simp [h])
      | inr h =>
        cases ih h with
        | inl h2 => exact Or.inl h2
        | inr h2 => exact Or.inr (List.mem_cons_of_mem d h2)

theorem uniformCols_setCol (L : Nat) (m : StockMatrix) (p : PartNo) (s : Series)
    (hu : uniformCols L m) (hs : s.length = L) : uniformCols L (setCol m p s) := by
  intro c hc
  cases mem_setCol m p s c hc with
  | inl h => rw [h]; exact hs
  | inr h => exact hu c h

theorem uniformCols_renameCol (L : Nat) (m : StockMatrix) (a b : PartNo)
    (hu : uniformCols L m) : uniformCols L (renameCol m a b) := by
  induction m with
  | nil => intro c hc; simp [renameCol] at hc
  | cons d m ih =>
    intro c hc
    have hd2 : d.2.length = L := hu d (List.mem_cons_self d m)
    have hum : uniformCols L m := fun e he => hu e (List.mem_cons_of_mem d he)
    by_cases hd : d.1 = a
    · simp only [renameCol, if_pos hd, List.mem_cons] at hc
      cases hc with
      | inl h => rw [h]; exact hd2
      | inr h => exact ih hum c h
    · simp only [renameCol, if_neg hd, List.mem_cons] at hc
      cases hc with
      | inl h => rw [h]; exact hd2
      | inr h => exact ih hum c h

theorem uniformCols_appendCol (L : Nat) (m : StockMatrix) (p : PartNo) (s : Series)
    (hu : uniformCols L m) (hs : s.length = L) : uniformCols L (appendCol m p s) := by
  intro c hc
  rw [appendCol, List.mem_append] at hc
  cases hc with
  | inl h => exact hu c h
  | inr h =>
    simp only [List.mem_singleton] at h
    rw [h]
    exact hs

theorem uniformCols_applyOneToOne (L : Nat) (m : StockMatrix) (r : PartNo × PartNo)
    (hu : uniformCols L m) : uniformCols L (applyOneToOne m r) := by
  unfold applyOneToOne
  cases hf : getCol m r.1 with
  | none => exact hu
  | some fs =>
    have hfl : fs.length = L := length_of_getCol L m r.1 fs hu hf
    cases hM : getCol m r.2 with
    | some ms =>
      have hml : ms.length = L := length_of_getCol L m r.2 ms hu hM
      simp only
      refine uniformCols_dropCol L _ r.1 (uniformCols_setCol L m r.2 _ hu ?_)
      rw [length_addSeries, hml, hfl, Nat.min_self]
    | none =>
      simp only
      exact uniformCols_dropCol L _ r.1 (uniformCols_renameCol L m r.1 r.2 hu)

theorem uniformCols_applyAlias (L : Nat) (m : StockMatrix) (M a : PartNo)
    (hu : uniformCols L m) : uniformCols L (applyAlias m M a) := by
  unfold applyAlias
  cases ha : getCol m a with
  | none => exact hu
  | some sa =>
    have hal : sa.length = L := length_of_getCol L m a sa hu ha
    cases hM : getCol m M with
    | some ms =>
      have hml : ms.length = L := length_of_getCol L m M ms hu hM
      simp only
      refine uniformCols_dropCol L _ a (uniformCols_setCol L m M _ hu ?_)
      rw [length_addSeries, hml, hal, Nat.min_self]
    | none =>
      simp only
      exact uniformCols_dropCol L _ a (uniformCols_appendCol L m M sa hu hal)

theorem uniformCols_applyExclusions (L : Nat) (excl : List PartNo) (m : StockMatrix)
    (hu : uniformCols L m) : uniformCols L (applyExclusions excl m) := by
  induction excl generalizing m with
  | nil => exact hu
  | cons e excl ih => exact ih (dropCol m e) (uniformCols_dropCol L m e hu)

theorem uniformCols_o2oFold (L : Nat) (rs : List (PartNo × PartNo)) (m : StockMatrix)
    (hu : uniformCols L m) : uniformCols L (rs.foldl applyOneToOne m) := by
  induction rs generalizing m with
  | nil => exact hu
  | cons r rs ih => exact ih (applyOneToOne m r) (uniformCols_applyOneToOne L m r hu)

theorem uniformCols_applyGroup (L : Nat) (m : StockMatrix) (k : PartNo) (als : List PartNo)
    (hu : uniformCols L m) : uniformCols L (applyGroup m k als) := by
  induction als generalizing m with
  | nil => exact hu
  | cons a als ih => exact ih (applyAlias m k a) (uniformCols_applyAlias L m k a hu)

theorem uniformCols_groupsFold (L : Nat) (m2o : List (PartNo × PartNo)) (ks : List PartNo)
    (m : StockMatrix) (hu : uniformCols L m) : uniformCols L (groupsFold m2o ks m) := by
  induction ks generalizing m with
  | nil => exact hu
  | cons k ks ih =>
    exact ih (applyGroup m k (aliasesOf m2o k)) (uniformCols_applyGroup L m k _ hu)

/-! ## Pointwise column values -/

theorem optVal_mergeInto (o1 o2 : Option Series) (i L : Nat) (hi : i < L)
    (h1 : ∀ s, o1 = some s → s.length = L) (h2 : ∀ s, o2 = some s → s.length = L) :
    optVal (mergeInto o1 o2) i = optVal o1 i + optVal o2 i := by
  cases o2 with
  | none => simp [mergeInto, optVal]
  | some sa =>
    cases o1 with
    | none => simp [mergeInto, optVal]
    | some ms =>
      simp only [mergeInto, optVal]
      exact getD_addSeries ms sa i (by rw [h1 ms rfl]; exact hi) (by rw [h2 sa rfl]; exact hi)

theorem applyOneToOne_colVal_main (L : Nat) (m : StockMatrix) (f M : PartNo) (i : Nat)
    (h : f ≠ M) (hu : uniformCols L m) (hi : i < L) :
    colVal (applyOneToOne m (f, M)) M i = colVal m M i + colVal m f i := by
  unfold colVal
  rw [applyOneToOne_getCol_main m f M h]
  exact optVal_mergeInto _ _ i L hi
    (fun s hs => length_of_getCol L m M s hu hs)
    (fun s hs => length_of_getCol L m f s hu hs)

theorem applyAlias_colVal_main (L : Nat) (m : StockMatrix) (M a : PartNo) (i : Nat)
    (h : a ≠ M) (hu : uniformCols L m) (hi : i < L) :
    colVal (applyAlias m M a) M i = colVal m M i + colVal m a i := by
  unfold colVal
  rw [applyAlias_getCol_main m M a h]
  exact optVal_mergeInto _ _ i L hi
    (fun s hs => length_of_getCol L m M s hu hs)
    (fun s hs => length_of_getCol L m a s hu hs)

theorem contribSum_nil (m : StockMatrix) (i : Nat) : contribSum m [] i = 0 := rfl

theorem contribSum_cons (m : StockMatrix) (p : PartNo) (ps : List PartNo) (i : Nat) :
    contribSum m (p :: ps) i = colVal m p i + contribSum m ps i := by
  simp [contribSum]

theorem contribSum_append (m : StockMatrix) (ps qs : List PartNo) (i : Nat) :
    contribSum m (ps ++ qs) i = contribSum m ps i + contribSum m qs i := by
  simp [contribSum]

theorem contribSum_congr (m1 m2 : StockMatrix) (ps : List PartNo) (i : Nat)
    (h : ∀ p ∈ ps, getCol m1 p = getCol m2 p) :
    contribSum m1 ps i = contribSum m2 ps i := by
  induction ps with
  | nil => rfl
  | cons p ps ih =>
    rw [contribSum_cons, contribSum_cons,
      ih (fun q hq => h q (List.mem_cons_of_mem p hq))]
    unfold colVal
    rw [h p (List.mem_cons_self p ps)]

/-! ## The exclusion pass -/

theorem getCol_applyExclusions_notmem (excl : List PartNo) (m : StockMatrix) (q : PartNo)
    (h : q ∉ excl) : getCol (applyExclusions excl m) q = getCol m q := by
  induction excl generalizing m with
  | nil => rfl
  | cons e excl ih =>
    have h1 : q ≠ e := fun hq => h (by rw [hq]; exact List.mem_cons_self e excl)
    have h2 : q ∉ excl := fun hq => h (List.mem_cons_of_mem e hq)
    show getCol (applyExclusions excl (dropCol m e)) q = getCol m q
    rw [ih (dropCol m e) h2, getCol_dropCol_ne m e q h1]

theorem getCol_applyExclusions_none (excl : List PartNo) (m : StockMatrix) (q : PartNo)
    (h : getCol m q = none) : getCol (applyExclusions excl m) q = none := by
  induction excl generalizing m with
  | nil => exact h
  | cons e excl ih =>
    show getCol (applyExclusions excl (dropCol m e)) q = none
    exact ih _ (getCol_dropCol_none m e q h)

theorem getCol_applyExclusions_mem (excl : List PartNo) (m : StockMatrix) (q : PartNo)
    (h : q ∈ excl) : getCol (applyExclusions excl m) q = none := by
  induction excl generalizing m with
  | nil => cases h
  | cons e excl ih =>
    show getCol (applyExclusions excl (dropCol m e)) q = none
    by_cases hqe : q = e
    · subst hqe
      exact getCol_applyExclusions_none excl _ q (getCol_dropCol_self m q)
    · cases List.mem_cons.mp h with
      | inl h2 => exact absurd h2 hqe
      | inr h2 => exact ih (dropCol m e) h2

/-! ## The one-to-one pass -/

theorem o2oFold_getCol_other (rs : List (PartNo × PartNo)) (m : StockMatrix) (q : PartNo)
    (h : ∀ r ∈ rs, r.1 ≠ q ∧ r.2 ≠ q) :
    getCol (rs.foldl applyOneToOne m) q = getCol m q := by
  induction rs generalizing m with
  | nil => rfl
  | cons r rs ih =>
    rw [List.foldl_cons]
    have hr := h r (List.mem_cons_self r rs)
    rw [ih (applyOneToOne m r) (fun r2 h2 => h r2 (List.mem_cons_of_mem r h2))]
    exact applyOneToOne_getCol_other m r.1 r.2 q (Ne.symm hr.1) (Ne.symm hr.2)

theorem o2oFold_absent (rs : List (PartNo × PartNo)) (m : StockMatrix) (q : PartNo)
    (h : getCol m q = none) (hm : ∀ r ∈ rs, r.2 ≠ q) :
    getCol (rs.foldl applyOneToOne m) q = none := by
  induction rs generalizing m with
  | nil => exact h
  | cons r rs ih =>
    rw [List.foldl_cons]
    exact ih _
      (applyOneToOne_absent m r.1 r.2 q h (Ne.symm (hm r (List.mem_cons_self r rs))))
      (fun r2 h2 => hm r2 (List.mem_cons_of_mem r h2))

theorem o2oFold_free_gone (rs : List (PartNo × PartNo)) (m : StockMatrix) (q : PartNo)
    (hex : ∃ r ∈ rs, r.1 = q) (hm : ∀ r ∈ rs, r.2 ≠ q) :
    getCol (rs.foldl applyOneToOne m) q = none := by
  induction rs generalizing m with
  | nil => obtain ⟨r, hr, _⟩ := hex; cases hr
  | cons r rs ih =>
    rw [List.foldl_cons]
    have hmt : ∀ r2 ∈ rs, r2.2 ≠ q := fun r2 h2 => hm r2 (List.mem_cons_of_mem r h2)
    by_cases hq : r.1 = q
    · have hq2 : r.1 ≠ r.2 := by
        rw [hq]; exact fun hc => hm r (List.mem_cons_self r rs) hc.symm
      have hgone : getCol (applyOneToOne m r) q = none := by
        rw [← hq]
        exact applyOneToOne_getCol_free m r.1 r.2 hq2
      exact o2oFold_absent rs _ q hgone hmt
    · obtain ⟨r2, hr2, hr2q⟩ := hex
      have hr2m : r2 ∈ rs := by
        cases List.mem_cons.mp hr2 with
        | inl h2 => exact absurd (h2 ▸ hr2q) hq
        | inr h2 => exact h2
      exact ih _ ⟨r2, hr2m, hr2q⟩ hmt

theorem freesOf_nil (M : PartNo) : freesOf [] M = [] := rfl

theorem freesOf_cons_eq (f M : PartNo) (rs : List (PartNo × PartNo)) :
    freesOf ((f, M) :: rs) M = f :: freesOf rs M := by
  simp [freesOf, List.filter_cons]

theorem freesOf_cons_ne (f mn M : PartNo) (rs : List (PartNo × PartNo)) (h : mn ≠ M) :
    freesOf ((f, mn) :: rs) M = freesOf rs M := by
  simp [freesOf, List.filter_cons, h]

theorem mem_map_fst_of_mem_freesOf (rs : List (PartNo × PartNo)) (M x : PartNo)
    (h : x ∈ freesOf rs M) : x ∈ rs.map Prod.fst := by
  unfold freesOf at h
  obtain ⟨r, hr, hrx⟩ := List.mem_map.mp h
  exact List.mem_map.mpr ⟨r, List.mem_of_mem_filter hr, hrx⟩

theorem mem_map_snd_of_mem_aliasesOf (rs : List (PartNo × PartNo)) (M x : PartNo)
    (h : x ∈ aliasesOf rs M) : x ∈ rs.map Prod.snd := by
  unfold aliasesOf at h
  obtain ⟨r, hr, hrx⟩ := List.mem_map.mp h
  exact List.mem_map.mpr ⟨r, List.mem_of_mem_filter hr, hrx⟩

theorem o2oFold_colVal_main (L i : Nat) (M : PartNo) (rs : List (PartNo × PartNo)) :
    ∀ m : StockMatrix, uniformCols L m → i < L →
      (rs.map Prod.fst).Nodup →
      (∀ r ∈ rs, r.1 ∉ rs.map Prod.snd) →
      M ∉ rs.map Prod.fst →
      colVal (rs.foldl applyOneToOne m) M i
        = colVal m M i + contribSum m (freesOf rs M) i := by
  induction rs with
  | nil =>
    intro m _ _ _ _ _
    simp [freesOf_nil, contribSum_nil]
  | cons r rs ih =>
    intro m hu hi hnd hfm hM
    obtain ⟨f, mn⟩ := r
    rw [List.foldl_cons]
    rw [List.map_cons] at hnd hM
    have hfni : f ∉ rs.map Prod.fst := (List.nodup_cons.mp hnd).1
    have hndt : (rs.map Prod.fst).Nodup := (List.nodup_cons.mp hnd).2
    have hMf : M ≠ f := fun h2 => hM (by rw [h2]; exact List.mem_cons_self _ _)
    have hMt : M ∉ rs.map Prod.fst := fun h2 => hM (List.mem_cons_of_mem _ h2)
    have hfmt : ∀ r2 ∈ rs, r2.1 ∉ rs.map Prod.snd := by
      intro r2 h2 hmem
      exact hfm r2 (List.mem_cons_of_mem _ h2)
        (by rw [List.map_cons]; exact List.mem_cons_of_mem _ hmem)
    have hu1 : uniformCols L (applyOneToOne m (f, mn)) :=
      uniformCols_applyOneToOne L m (f, mn) hu
    have hpres : ∀ p ∈ freesOf rs M, getCol (applyOneToOne m (f, mn)) p = getCol m p := by
      intro p hp
      have hpf : p ∈ rs.map Prod.fst := mem_map_fst_of_mem_freesOf rs M p hp
      have hp1 : p ≠ f := fun h2 => hfni (h2 ▸ hpf)
      have hp2 : p ≠ mn := by
        intro h2
        obtain ⟨r2, hr2, hr2p⟩ := List.mem_map.mp hpf
        exact hfm r2 (List.mem_cons_of_mem _ hr2)
          (by rw [List.map_cons, hr2p, h2]; exact List.mem_cons_self _ _)
      exact applyOneToOne_getCol_other m f mn p hp1 hp2
    by_cases hc : mn = M
    · subst hc
      rw [freesOf_cons_eq, contribSum_cons]
      rw [ih (applyOneToOne m (f, mn)) hu1 hi hndt hfmt hMt]
      rw [contribSum_congr _ m (freesOf rs mn) i hpres]
      rw [applyOneToOne_colVal_main L m f mn i (fun h2 => hMf h2.symm) hu hi]
      omega
    · rw [freesOf_cons_ne f mn M rs hc]
      rw [ih (applyOneToOne m (f, mn)) hu1 hi hndt hfmt hMt]
      rw [contribSum_congr _ m (freesOf rs M) i hpres]
      have : getCol (applyOneToOne m (f, mn)) M = getCol m M :=
        applyOneToOne_getCol_other m f mn M hMf (fun h2 => hc h2.symm)
      unfold colVal
      rw [this]

/-! ## The many-to-one pass -/

theorem applyGroup_getCol_other (m : StockMatrix) (k q : PartNo) (als : List PartNo)
    (hk : q ≠ k) (ha : ∀ a ∈ als, q ≠ a) :
    getCol (applyGroup m k als) q = getCol m q := by
  induction als generalizing m with
  | nil => rfl
  | cons a als ih =>
    show getCol (applyGroup (applyAlias m k a) k als) q = getCol m q
    rw [ih (applyAlias m k a) (fun b hb => ha b (List.mem_cons_of_mem a hb))]
    exact applyAlias_getCol_other m k a q (ha a (List.mem_cons_self a als)) hk

theorem applyGroup_colVal (L i : Nat) (k : PartNo) (als : List PartNo) :
    ∀ m : StockMatrix, uniformCols L m → i < L → (∀ a ∈ als, a ≠ k) → als.Nodup →
      colVal (applyGroup m k als) k i = colVal m k i + contribSum m als i := by
  induction als with
  | nil =>
    intro m _ _ _ _
    show colVal m k i = colVal m k i + contribSum m [] i
    rw [contribSum_nil, Int.add_zero]
  | cons a als ih =>
    intro m hu hi hak hnd
    rw [List.nodup_cons] at hnd
    show colVal (applyGroup (applyAlias m k a) k als) k i = _
    rw [ih (applyAlias m k a) (uniformCols_applyAlias L m k a hu) hi
      (fun b hb => hak b (List.mem_cons_of_mem a hb)) hnd.2]
    have hpres : ∀ p ∈ als, getCol (applyAlias m k a) p = getCol m p := by
      intro p hp
      exact applyAlias_getCol_other m k a p (fun h2 => hnd.1 (h2 ▸ hp))
        (hak p (List.mem_cons_of_mem a hp))
    rw [contribSum_congr _ m als i hpres]
    rw [applyAlias_colVal_main L m k a i (hak a (List.mem_cons_self a als)) hu hi]
    rw [contribSum_cons]
    omega

theorem applyGroup_absent (k q : PartNo) (als : List PartNo) :
    ∀ m : StockMatrix, getCol m q = none → q ≠ k →
      getCol (applyGroup m k als) q = none := by
  induction als with
  | nil => intro m h _; exact h
  | cons a als ih =>
    intro m h hk
    show getCol (applyGroup (applyAlias m k a) k als) q = none
    exact ih (applyAlias m k a) (applyAlias_absent m k a q h hk) hk

theorem applyGroup_alias_gone (k q : PartNo) (als : List PartNo) :
    ∀ m : StockMatrix, q ∈ als → q ≠ k → getCol (applyGroup m k als) q = none := by
  induction als with
  | nil => intro m h _; cases h
  | cons a als ih =>
    intro m h hk
    show getCol (applyGroup (applyAlias m k a) k als) q = none
    by_cases hqa : q = a
    · subst hqa
      exact applyGroup_absent k q als _ (applyAlias_getCol_alias m k q hk) hk
    · cases List.mem_cons.mp h with
      | inl h2 => exact absurd h2 hqa
      | inr h2 => exact ih (applyAlias m k a) h2 hk

theorem aliasesOf_disjoint (m2o : List (PartNo × PartNo))
    (hnd : (m2o.map Prod.snd).Nodup) (k1 k2 a : PartNo) (hk : k1 ≠ k2)
    (h1 : a ∈ aliasesOf m2o k1) (h2 : a ∈ aliasesOf m2o k2) : False := by
  obtain ⟨r1, hr1, hr1a⟩ := List.mem_map.mp h1
  obtain ⟨r2, hr2, hr2a⟩ := List.mem_map.mp h2
  have hr1k : r1.1 = k1 := by simpa using (List.mem_filter.mp hr1).2
  have hr2k : r2.1 = k2 := by simpa using (List.mem_filter.mp hr2).2
  have hne : r1 ≠ r2 := fun h => hk (by rw [← hr1k, h, hr2k])
  have hpw : m2o.Pairwise (fun x y => x.2 ≠ y.2) := List.pairwise_map.mp hnd
  exact hpw.forall (fun x y h => Ne.symm h)
    (List.mem_of_mem_filter hr1) (List.mem_of_mem_filter hr2) hne (hr1a.trans hr2a.symm)

theorem nodup_aliasesOf (m2o : List (PartNo × PartNo)) (k : PartNo)
    (hnd : (m2o.map Prod.snd).Nodup) : (aliasesOf m2o k).Nodup :=
  hnd.sublist ((List.filter_sublist m2o).map Prod.snd)

theorem aliasesOf_eq_nil (m2o : List (PartNo × PartNo)) (M : PartNo)
    (h : M ∉ m2o.map Prod.fst) : aliasesOf m2o M = [] := by
  unfold aliasesOf
  have : m2o.filter (fun r => r.1 == M) = [] := by
    rw [List.filter_eq_nil]
    intro r hr
    simp only [beq_iff_eq]
    intro h2
    exact h (List.mem_map.mpr ⟨r, hr, h2⟩)
  rw [this, List.map_nil]

theorem groupsFold_getCol_other (m2o : List (PartNo × PartNo)) (q : PartNo)
    (ks : List PartNo) :
    ∀ m : StockMatrix, (∀ k ∈ ks, q ≠ k) → (∀ r ∈ m2o, r.2 ≠ q) →
      getCol (groupsFold m2o ks m) q = getCol m q := by
  induction ks with
  | nil => intro m _ _; rfl
  | cons k ks ih =>
    intro m hk ha
    show getCol (groupsFold m2o ks (applyGroup m k (aliasesOf m2o k))) q = getCol m q
    rw [ih _ (fun k2 h2 => hk k2 (List.mem_cons_of_mem k h2)) ha]
    refine applyGroup_getCol_other m k q (aliasesOf m2o k) (hk k (List.mem_cons_self k ks)) ?_
    intro a hamem hqa
    obtain ⟨r, hr, hra⟩ := List.mem_map.mp hamem
    exact ha r (List.mem_of_mem_filter hr) (by rw [hra, ← hqa])

theorem groupsFold_absent (m2o : List (PartNo × PartNo)) (q : PartNo) (ks : List PartNo) :
    ∀ m : StockMatrix, getCol m q = none → (∀ k ∈ ks, q ≠ k) →
      getCol (groupsFold m2o ks m) q = none := by
  induction ks with
  | nil => intro m h _; exact h
  | cons k ks ih =>
    intro m h hk
    show getCol (groupsFold m2o ks (applyGroup m k (aliasesOf m2o k))) q = none
    exact ih _ (applyGroup_absent k q _ m h (hk k (List.mem_cons_self k ks)))
      (fun k2 h2 => hk k2 (List.mem_cons_of_mem k h2))

theorem groupsFold_alias_gone (m2o : List (PartNo × PartNo)) (q : PartNo) (ks : List PartNo) :
    ∀ m : StockMatrix, (∃ k ∈ ks, q ∈ aliasesOf m2o k) → (∀ k ∈ ks, q ≠ k) →
      getCol (groupsFold m2o ks m) q = none := by
  induction ks with
  | nil => intro m h _; obtain ⟨k, hk, _⟩ := h; cases hk
  | cons k ks ih =>
    intro m hex hk
    show getCol (groupsFold m2o ks (applyGroup m k (aliasesOf m2o k))) q = none
    by_cases hq : q ∈ aliasesOf m2o k
    · have hgone : getCol (applyGroup m k (aliasesOf m2o k)) q = none :=
        applyGroup_alias_gone k q _ m hq (hk k (List.mem_cons_self k ks))
      exact groupsFold_absent m2o q ks _ hgone
        (fun k2 h2 => hk k2 (List.mem_cons_of_mem k h2))
    · obtain ⟨k2, hk2, hq2⟩ := hex
      have hk2m : k2 ∈ ks := by
        cases List.mem_cons.mp hk2 with
        | inl h2 => exact absurd (h2 ▸ hq2) hq
        | inr h2 => exact h2
      exact ih _ ⟨k2, hk2m, hq2⟩ (fun k3 h3 => hk k3 (List.mem_cons_of_mem k h3))

theorem mem_insertSorted (x a : Nat) (l : List Nat) :
    a ∈ insertSorted x l ↔ a = x ∨ a ∈ l := by
  induction l with
  | nil => simp [insertSorted]
  | cons y ys ih =>
    by_cases h : x ≤ y
    · simp only [insertSorted, if_pos h, List.mem_cons]
    · simp only [insertSorted, if_neg h, List.mem_cons, ih]
      tauto

theorem mem_sortNat (l : List Nat) (a : Nat) : a ∈ sortNat l ↔ a ∈ l := by
  induction l with
  | nil => simp [sortNat]
  | cons x xs ih =>
    show a ∈ insertSorted x (sortNat xs) ↔ _
    rw [mem_insertSorted, ih, List.mem_cons]

theorem nodup_insertSorted (x : Nat) (l : List Nat) (hx : x ∉ l) (hl : l.Nodup) :
    (insertSorted x l).Nodup := by
  induction l with
  | nil => simp [insertSorted]
  | cons y ys ih =>
    rw [List.nodup_cons] at hl
    have hxy : x ≠ y := fun h => hx (by rw [h]; exact List.mem_cons_self y ys)
    have hxys : x ∉ ys := fun h => hx (List.mem_cons_of_mem y h)
    by_cases h : x ≤ y
    · simp only [insertSorted, if_pos h]
      rw [List.nodup_cons, List.nodup_cons]
      exact ⟨hx, hl.1, hl.2⟩
    · simp only [insertSorted, if_neg h]
      rw [List.nodup_cons]
      constructor
      · rw [mem_insertSorted]
        rintro (h1 | h2)
        · exact hxy h1.symm
        · exact hl.1 h2
      · exact ih hxys hl.2

theorem nodup_sortNat (l : List Nat) (hl : l.Nodup) : (sortNat l).Nodup := by
  induction l with
  | nil => simp [sortNat]
  | cons x xs ih =>
    rw [List.nodup_cons] at hl
    show (insertSorted x (sortNat xs)).Nodup
    exact nodup_insertSorted x (sortNat xs)
      (fun h => hl.1 ((mem_sortNat xs x).mp h)) (ih hl.2)

theorem groupsFold_colVal (L i : Nat) (m2o : List (PartNo × PartNo)) (M : PartNo)
    (hnd : (m2o.map Prod.snd).Nodup)
    (hnm : ∀ r ∈ m2o, r.2 ∉ m2o.map Prod.fst)
    (hMa : M ∉ m2o.map Prod.snd) :
    ∀ (ks : List PartNo) (m : StockMatrix), uniformCols L m → i < L → ks.Nodup →
      (∀ k ∈ ks, k ∈ m2o.map Prod.fst) →
      colVal (groupsFold m2o ks m) M i
        = colVal m M i + (if M ∈ ks then contribSum m (aliasesOf m2o M) i else 0) := by
  intro ks
  induction ks with
  | nil =>
    intro m _ _ _ _
    show colVal m M i = colVal m M i + (if M ∈ ([] : List PartNo) then _ else 0)
    simp
  | cons k ks ih =>
    intro m hu hi hnd2 hkm
    rw [List.nodup_cons] at hnd2
    show colVal (groupsFold m2o ks (applyGroup m k (aliasesOf m2o k))) M i = _
    have hu1 : uniformCols L (applyGroup m k (aliasesOf m2o k)) :=
      uniformCols_applyGroup L m k _ hu
    have hkmt : ∀ k2 ∈ ks, k2 ∈ m2o.map Prod.fst :=
      fun k2 h2 => hkm k2 (List.mem_cons_of_mem k h2)
    rw [ih _ hu1 hi hnd2.2 hkmt]
    by_cases hkM : k = M
    · subst hkM
      have h1 : colVal (applyGroup m k (aliasesOf m2o k)) k i
          = colVal m k i + contribSum m (aliasesOf m2o k) i := by
        refine applyGroup_colVal L i k (aliasesOf m2o k) m hu hi ?_
          (nodup_aliasesOf m2o k hnd)
        intro a ha hak
        exact hMa (hak ▸ mem_map_snd_of_mem_aliasesOf m2o k a ha)
      rw [if_neg hnd2.1, if_pos (List.mem_cons_self k ks), Int.add_zero, h1]
    · have hMk : M ≠ k := fun h2 => hkM h2.symm
      have hMpres : getCol (applyGroup m k (aliasesOf m2o k)) M = getCol m M := by
        refine applyGroup_getCol_other m k M (aliasesOf m2o k) hMk ?_
        intro a ha hMa2
        exact hMa (hMa2 ▸ mem_map_snd_of_mem_aliasesOf m2o k a ha)
      have hapres : ∀ p ∈ aliasesOf m2o M,
          getCol (applyGroup m k (aliasesOf m2o k)) p = getCol m p := by
        intro p hp
        refine applyGroup_getCol_other m k p (aliasesOf m2o k) ?_ ?_
        · intro hpk
          obtain ⟨r, hr, hrp⟩ := List.mem_map.mp hp
          exact hnm r (List.mem_of_mem_filter hr)
            (by rw [hrp, hpk]; exact hkm k (List.mem_cons_self k ks))
        · intro a ha hpa
          exact aliasesOf_disjoint m2o hnd M k p hMk hp (hpa ▸ ha)
      have hcv : colVal (applyGroup m k (aliasesOf m2o k)) M i = colVal m M i := by
        unfold colVal
        rw [hMpres]
      by_cases hMks : M ∈ ks
      · rw [if_pos hMks, if_pos (List.mem_cons_of_mem k hMks)]
        rw [contribSum_congr _ m _ i hapres, hcv]
      · rw [if_neg hMks, if_neg (fun h2 => by
          cases List.mem_cons.mp h2 with
          | inl h3 => exact hMk h3
          | inr h3 => exact hMks h3)]
        rw [hcv]

theorem applyManyToOne_colVal (L i : Nat) (m2o : List (PartNo × PartNo)) (M : PartNo)
    (m : StockMatrix)
    (hnd : (m2o.map Prod.snd).Nodup)
    (hnm : ∀ r ∈ m2o, r.2 ∉ m2o.map Prod.fst)
    (hMa : M ∉ m2o.map Prod.snd)
    (hu : uniformCols L m) (hi : i < L) :
    colVal (applyManyToOne m2o m) M i = colVal m M i + contribSum m (aliasesOf m2o M) i := by
  unfold applyManyToOne groupsFold
  rw [show (sortNat (m2o.map Prod.fst).dedup).foldl
      (fun acc k => applyGroup acc k (aliasesOf m2o k)) m
      = groupsFold m2o (sortNat (m2o.map Prod.fst).dedup) m from rfl]
  rw [groupsFold_colVal L i m2o M hnd hnm hMa _ m hu hi
    (nodup_sortNat _ (List.nodup_dedup _))
    (fun k hk => (List.mem_dedup).mp ((mem_sortNat _ k).mp hk))]
  by_cases hM : M ∈ m2o.map Prod.fst
  · rw [if_pos ((mem_sortNat _ M).mpr ((List.mem_dedup).mpr hM))]
  · rw [if_neg (fun h => hM ((List.mem_dedup).mp ((mem_sortNat _ M).mp h)))]
    rw [aliasesOf_eq_nil m2o M hM, contribSum_nil]

/-! ## Remaining helper lemmas -/

theorem dropCol_setCol (m : StockMatrix) (p : PartNo) (s : Series) :
    dropCol (setCol m p s) p = dropCol m p := by
  induction m with
  | nil => rfl
  | cons c m ih => by_cases hc : c.1 = p <;> simp [setCol, dropCol, hc, ih]

theorem firstQtyFor_cons (r : ProductRec) (rs : List ProductRec) (p : PartNo) :
    firstQtyFor (r :: rs) p = if r.part = p then some r.qty else firstQtyFor rs p := rfl

theorem firstQtyFor_dropDupFirst (l : List ProductRec) :
    ∀ (seen : List PartNo) (p : PartNo), p ∉ seen →
      firstQtyFor (dropDupFirst seen l) p = firstQtyFor l p := by
  induction l with
  | nil => intro seen p _; rfl
  | cons r rs ih =>
    intro seen p hp
    by_cases hr : r.part ∈ seen
    · simp only [dropDupFirst, if_pos hr]
      have hrp : r.part ≠ p := fun h => hp (h ▸ hr)
      rw [ih seen p hp, firstQtyFor_cons, if_neg hrp]
    · simp only [dropDupFirst, if_neg hr]
      rw [firstQtyFor_cons, firstQtyFor_cons]
      by_cases hrp : r.part = p
      · rw [if_pos hrp, if_pos hrp]
      · rw [if_neg hrp, if_neg hrp]
        refine ih (r.part :: seen) p ?_
        intro hmem
        cases List.mem_cons.mp hmem with
        | inl h2 => exact hrp h2.symm
        | inr h2 => exact hp h2

/-! ## Claim theorems -/

/-- C3 counterexample: for the input rows `[(part 7, missing qty), (part 7, qty 5)]`
the code computes a starting balance of 5 for part 7 (the `dropna` call removes
the missing-quantity record before deduplication), while the claim prescribes
the first record in input order, i.e. 0.  This refutes the claim as stated. -/
theorem claim_C3_counterexample :
    initialQty [⟨7, QtyField.missing⟩, ⟨7, QtyField.num 5⟩] 7 = 5 ∧
    specFirstRecordQty [⟨7, QtyField.missing⟩, ⟨7, QtyField.num 5⟩] 7 = 0 ∧
    (5 : Int) ≠ 0 := by decide

/-- C3 (amended): the starting balance of part `p` equals the quantity of the
first starting-inventory record for `p` whose quantity is present
(non-missing), with 0 when there is no such record or when that record's
quantity is non-numeric; records with missing quantities are skipped, not
taken as 0. -/
theorem claim_C3_first_present_record (rows : List ProductRec) (p : PartNo) :
    initialQty rows p = specFirstPresentQty rows p := by
  unfold initialQty specFirstPresentQty cleanProductData
  rw [firstQtyFor_dropDupFirst _ [] p (List.not_mem_nil p)]

/-- C8: a one-to-one rule `(free, main)` with `free` present and `main`
absent renames the `free` column to `main` with its values unchanged and
removes the `free` column; when `free` is absent the rule changes nothing. -/
theorem claim_C8_one_to_one_rename (m : StockMatrix) (freeP mainP : PartNo) :
    (∀ s, getCol m freeP = some s → getCol m mainP = none →
      getCol (applyOneToOne m (freeP, mainP)) mainP = some s ∧
      getCol (applyOneToOne m (freeP, mainP)) freeP = none) ∧
    (getCol m freeP = none → applyOneToOne m (freeP, mainP) = m) := by
  constructor
  · intro s hf hm
    have hne : freeP ≠ mainP := fun h => by rw [h, hm] at hf; cases hf
    constructor
    · rw [applyOneToOne_getCol_main m freeP mainP hne, hm, hf]
      rfl
    · exact applyOneToOne_getCol_free m freeP mainP hne
  · intro hf
    unfold applyOneToOne
    rw [hf]

/-- C8 witness: concrete instance on the one-column matrix `[(1, [7])]` with
rule `(1, 2)`. -/
theorem claim_C8_witness :
    getCol [((1 : PartNo), [(7 : Int)])] 1 = some [7] ∧
    getCol [((1 : PartNo), [(7 : Int)])] 2 = none ∧
    getCol (applyOneToOne [((1 : PartNo), [(7 : Int)])] (1, 2)) 2 = some [7] ∧
    getCol (applyOneToOne [((1 : PartNo), [(7 : Int)])] (1, 2)) 1 = none :=
  ⟨by decide, by decide,
    ((claim_C8_one_to_one_rename [((1 : PartNo), [(7 : Int)])] 1 2).1 [7]
      (by decide) (by decide)).1,
    ((claim_C8_one_to_one_rename [((1 : PartNo), [(7 : Int)])] 1 2).1 [7]
      (by decide) (by decide)).2⟩

/-- C9: a one-to-one rule whose free part equals its main part, applied to a
matrix containing that column, removes the column entirely (the add-then-drop
sequence acts on the single shared label), so the part disappears from the
report. -/
theorem claim_C9_self_rule_drops_column (m : StockMatrix) (p : PartNo)
    (h : hasCol m p = true) :
    applyOneToOne m (p, p) = dropCol m p ∧
    hasCol (applyOneToOne m (p, p)) p = false := by
  have h1 : applyOneToOne m (p, p) = dropCol m p := by
    unfold hasCol at h
    cases hg : getCol m p with
    | none => rw [hg] at h; cases h
    | some s =>
      unfold applyOneToOne
      rw [hg]
      exact dropCol_setCol m p (addSeries s s)
  refine ⟨h1, ?_⟩
  unfold hasCol
  rw [h1, getCol_dropCol_self]
  rfl

/-- C9 witness: concrete instance on `[(1, [2])]` with rule `(1, 1)`. -/
theorem claim_C9_witness :
    hasCol [((1 : PartNo), [(2 : Int)])] 1 = true ∧
    (applyOneToOne [((1 : PartNo), [(2 : Int)])] (1, 1)
        = dropCol [((1 : PartNo), [(2 : Int)])] 1 ∧
      hasCol (applyOneToOne [((1 : PartNo), [(2 : Int)])] (1, 1)) 1 = false) :=
  ⟨by decide, claim_C9_self_rule_drops_column [((1 : PartNo), [(2 : Int)])] 1 (by decide)⟩

/-- C2 counterexample: with exclusion list `[2]`, one-to-one rule `(1, 2)` and
the matrix `[(1, [5]), (2, [3])]`, the excluded part 2 is dropped by the
exclusion pass but re-created by the one-to-one rename, so the resolved
matrix does contain a column for the excluded part 2. -/
theorem claim_C2_counterexample :
    2 ∈ [2] ∧
    hasCol (resolveAliases [2] [(1, 2)] [] [(1, [5]), (2, [3])]) 2 = true := by
  decide

/-- C2 (amended): an excluded part that is not named as the main part of any
one-to-one or many-to-one rule is absent from the resolved matrix; a rule
whose main part is excluded can re-create the excluded column. -/
theorem claim_C2_excluded_absent (excl : List PartNo) (o2o m2o : List (PartNo × PartNo))
    (m : StockMatrix) (e : PartNo) (he : e ∈ excl)
    (h1 : ∀ r ∈ o2o, r.2 ≠ e) (h2 : ∀ r ∈ m2o, r.1 ≠ e) :
    hasCol (resolveAliases excl o2o m2o m) e = false := by
  unfold resolveAliases
  have s1 : getCol (applyExclusions excl m) e = none :=
    getCol_applyExclusions_mem excl m e he
  have s2 : getCol (o2o.foldl applyOneToOne (applyExclusions excl m)) e = none :=
    o2oFold_absent o2o _ e s1 h1
  have s3 : getCol
      (applyManyToOne m2o (o2o.foldl applyOneToOne (applyExclusions excl m))) e = none := by
    unfold applyManyToOne
    refine groupsFold_absent m2o e _ _ s2 ?_
    intro k hk hek
    obtain hkm := (List.mem_dedup).mp ((mem_sortNat _ k).mp hk)
    obtain ⟨r, hr, hrk⟩ := List.mem_map.mp hkm
    exact h2 r hr (hrk.trans hek.symm)
  unfold hasCol
  rw [s3]
  rfl

/-- C2 witness: exclusion `[9]`, rules `[(1, 2)]` and `[(3, 4)]`, matrix
`[(9, [5]), (1, [6])]`: part 9 is excluded, no rule has main 9, and the
resolved matrix has no column 9. -/
theorem claim_C2_witness :
    9 ∈ [9] ∧
    (∀ r ∈ [((1 : PartNo), (2 : PartNo))], r.2 ≠ 9) ∧
    (∀ r ∈ [((3 : PartNo), (4 : PartNo))], r.1 ≠ 9) ∧
    hasCol (resolveAliases [9] [(1, 2)] [(3, 4)] [(9, [5]), (1, [6])]) 9 = false :=
  ⟨by decide, by decide, by decide,
    claim_C2_excluded_absent [9] [(1, 2)] [(3, 4)] [(9, [5]), (1, [6])] 9
      (by decide) (by decide) (by decide)⟩

/-- C5 counterexample: for the group with main 0 and aliases 0 and 1 (both
present in `[(0, [1]), (1, [10])]`), merging alias 0 then alias 1 leaves
column 0 with values `[10]`, while merging alias 1 then alias 0 removes
column 0 entirely: merge order matters when an alias equals the main part. -/
theorem claim_C5_counterexample :
    hasCol [((0 : PartNo), [(1 : Int)]), (1, [10])] 0 = true ∧
    hasCol [((0 : PartNo), [(1 : Int)]), (1, [10])] 1 = true ∧
    getCol (applyAlias (applyAlias [((0 : PartNo), [(1 : Int)]), (1, [10])] 0 0) 0 1) 0
      = some [10] ∧
    getCol (applyAlias (applyAlias [((0 : PartNo), [(1 : Int)]), (1, [10])] 0 1) 0 0) 0
      = none := by
  decide

/-- C5 (amended): for a many-to-one group with main part `M` and aliases
`A`, `B` distinct from `M` and both present in the matrix, merging the two
aliases in either order yields identical final values for column `M`. -/
theorem claim_C5_merge_order_comm (m : StockMatrix) (M A B : PartNo)
    (hA : A ≠ M) (hB : B ≠ M)
    (_hpA : hasCol m A = true) (_hpB : hasCol m B = true) :
    getCol (applyAlias (applyAlias m M A) M B) M
      = getCol (applyAlias (applyAlias m M B) M A) M := by
  by_cases hAB : A = B
  · rw [hAB]
  · have h1 : getCol (applyAlias m M A) B = getCol m B :=
      applyAlias_getCol_other m M A B (fun h => hAB h.symm) hB
    have h2 : getCol (applyAlias m M B) A = getCol m A :=
      applyAlias_getCol_other m M B A hAB hA
    rw [applyAlias_getCol_main (applyAlias m M A) M B hB,
      applyAlias_getCol_main m M A hA,
      applyAlias_getCol_main (applyAlias m M B) M A hA,
      applyAlias_getCol_main m M B hB, h1, h2]
    cases getCol m A with
    | none =>
      cases getCol m B with
      | none => rfl
      | some sb => rfl
    | some sa =>
      cases getCol m B with
      | none => rfl
      | some sb =>
        cases getCol m M with
        | none => simp [mergeInto, addSeries_comm sa sb]
        | some ms => simp [mergeInto, addSeries_right_comm ms sa sb]

/-- C5 witness: main 0, aliases 1 and 2 on `[(0, [1]), (1, [2]), (2, [3])]`. -/
theorem claim_C5_witness :
    (1 : PartNo) ≠ 0 ∧ (2 : PartNo) ≠ 0 ∧
    hasCol [((0 : PartNo), [(1 : Int)]), (1, [2]), (2, [3])] 1 = true ∧
    hasCol [((0 : PartNo), [(1 : Int)]), (1, [2]), (2, [3])] 2 = true ∧
    getCol (applyAlias (applyAlias [((0 : PartNo), [(1 : Int)]), (1, [2]), (2, [3])] 0 1) 0 2) 0
      = getCol (applyAlias (applyAlias [((0 : PartNo), [(1 : Int)]), (1, [2]), (2, [3])] 0 2) 0 1) 0 :=
  ⟨by decide, by decide, by decide, by decide,
    claim_C5_merge_order_comm [((0 : PartNo), [(1 : Int)]), (1, [2]), (2, [3])] 0 1 2
      (by decide) (by decide) (by decide) (by decide)⟩

theorem getD_map_range (g : Nat → Int) (n i : Nat) (h : i < n) :
    ((List.range n).map g).getD i 0 = g i := by
  rw [List.getD_eq_getElem?_getD, List.getElem?_map, List.getElem?_range h]
  rfl

theorem getCol_map_pairs (f : PartNo → Series) (l : List PartNo) (p : PartNo) (s : Series)
    (h : getCol (l.map (fun q => (q, f q))) p = some s) : s = f p := by
  induction l with
  | nil => simp at h
  | cons q l ih =>
    rw [List.map_cons, getCol_cons] at h
    by_cases hq : q = p
    · rw [if_pos hq] at h
      cases h
      rw [hq]
    · rw [if_neg hq] at h
      exact ih h

/-- C1: every column of the computed inventory matrix satisfies the
roll-forward recurrence: the balance on day `i + 1` equals the balance on
day `i` plus that day's inbound aggregate minus that day's outbound
aggregate, for every consecutive pair of dates inside the window. -/
theorem claim_C1_balance_recurrence (start : Int) (prodRows : List ProductRec)
    (factory : List FactoryRec) (orders : List OrderRec) (p : PartNo) (s : Series) (i : Nat)
    (hs : getCol (inventoryMatrix start prodRows factory orders) p = some s)
    (hi : i + 1 < 181) :
    s.getD (i + 1) 0
      = s.getD i 0
        + inbound (knownParts prodRows) factory (start + (i : Int) + 1) p
        - outbound start orders (start + (i : Int) + 1) p := by
  unfold inventoryMatrix at hs
  have hsb := getCol_map_pairs
    (fun q => balanceSeries start (knownParts prodRows) prodRows factory orders q)
    (knownParts prodRows) p s hs
  subst hsb
  unfold balanceSeries
  rw [getD_map_range _ 181 (i + 1) hi,
    getD_map_range _ 181 i (Nat.lt_of_succ_lt hi)]
  rfl

/-- C1 witness: a single part with starting quantity 5, one shipment of 4 on
day 3 and one surviving order of 3 on day 4; the recurrence is checked
between days 3 and 4. -/
theorem claim_C1_witness :
    getCol (inventoryMatrix 0 [⟨7, QtyField.num 5⟩] [⟨7, 3, 4⟩] [⟨7, 4, 3, none⟩]) 7
      = some (balanceSeries 0 (knownParts [⟨7, QtyField.num 5⟩]) [⟨7, QtyField.num 5⟩]
          [⟨7, 3, 4⟩] [⟨7, 4, 3, none⟩] 7) ∧
    (3 + 1 < 181) ∧
    (balanceSeries 0 (knownParts [⟨7, QtyField.num 5⟩]) [⟨7, QtyField.num 5⟩]
        [⟨7, 3, 4⟩] [⟨7, 4, 3, none⟩] 7).getD (3 + 1) 0
      = (balanceSeries 0 (knownParts [⟨7, QtyField.num 5⟩]) [⟨7, QtyField.num 5⟩]
          [⟨7, 3, 4⟩] [⟨7, 4, 3, none⟩] 7).getD 3 0
        + inbound (knownParts [⟨7, QtyField.num 5⟩]) [⟨7, 3, 4⟩] (0 + (3 : Int) + 1) 7
        - outbound 0 [⟨7, 4, 3, none⟩] (0 + (3 : Int) + 1) 7 :=
  ⟨rfl, by decide,
    claim_C1_balance_recurrence 0 [⟨7, QtyField.num 5⟩] [⟨7, 3, 4⟩] [⟨7, 4, 3, none⟩] 7 _ 3
      rfl (by decide)⟩

/-- C4: for every window start and any inputs, the date axis has exactly 181
entries, the entry at index `i` is `start + i` (so the days are consecutive
with no gaps), every column of the balance matrix covers all 181 days, and
the window start `today.replace(day=1)` is the first day of the current
calendar month. -/
theorem claim_C4_date_axis (start : Int) (today : CalDate) (prodRows : List ProductRec)
    (factory : List FactoryRec) (orders : List OrderRec) :
    (dateRange start).length = 181 ∧
    (∀ i, i < 181 → (dateRange start).getD i 0 = start + (i : Int)) ∧
    (∀ c ∈ inventoryMatrix start prodRows factory orders, c.2.length = 181) ∧
    (monthStart today).day = 1 ∧
    (monthStart today).month = today.month ∧
    (monthStart today).year = today.year := by
  refine ⟨?_, ?_, ?_, rfl, rfl, rfl⟩
  · unfold dateRange
    rw [List.length_map, List.length_range]
  · intro i hi
    unfold dateRange
    exact getD_map_range _ 181 i hi
  · intro c hc
    unfold inventoryMatrix at hc
    obtain ⟨p, _, hpc⟩ := List.mem_map.mp hc
    rw [← hpc]
    simp [balanceSeries]

/-- C4 witness: concrete window start 0, a sparse input set, and concrete
index 180. -/
theorem claim_C4_witness :
    (dateRange 0).length = 181 ∧
    (dateRange 0).getD 180 0 = 0 + (180 : Int) ∧
    (∀ c ∈ inventoryMatrix 0 [⟨7, QtyField.num 5⟩] [] [], c.2.length = 181) ∧
    (monthStart ⟨2026, 10, 12⟩).day = 1 :=
  ⟨(claim_C4_date_axis 0 ⟨2026, 10, 12⟩ [⟨7, QtyField.num 5⟩] [] []).1,
    (claim_C4_date_axis 0 ⟨2026, 10, 12⟩ [⟨7, QtyField.num 5⟩] [] []).2.1 180 (by decide),
    (claim_C4_date_axis 0 ⟨2026, 10, 12⟩ [⟨7, QtyField.num 5⟩] [] []).2.2.1,
    (claim_C4_date_axis 0 ⟨2026, 10, 12⟩ [⟨7, QtyField.num 5⟩] [] []).2.2.2.1⟩

theorem filteredOrders_append_excluded (start : Int) (orders : List OrderRec) (r : OrderRec)
    (h : statusExcluded r.status = true ∨ r.date < start) :
    filteredOrders start (orders ++ [r]) = filteredOrders start orders := by
  unfold filteredOrders
  rw [List.filter_append]
  have hr : (decide (start ≤ r.date) && !statusExcluded r.status) = false := by
    cases h with
    | inl h => rw [h]; simp
    | inr h => rw [decide_eq_false (Int.not_le.mpr h)]; simp
  rw [show List.filter (fun r2 => decide (start ≤ r2.date) && !statusExcluded r2.status) [r]
      = [] by simp [List.filter_cons, hr]]
  rw [List.append_nil]

theorem balance_append_excluded (start : Int) (products : List PartNo)
    (prodRows : List ProductRec) (factory : List FactoryRec) (orders : List OrderRec)
    (r : OrderRec)
    (h : filteredOrders start (orders ++ [r]) = filteredOrders start orders) :
    ∀ (i : Nat) (p : PartNo),
      balance start products prodRows factory (orders ++ [r]) i p
        = balance start products prodRows factory orders i p := by
  intro i
  induction i with
  | zero =>
    intro p
    unfold balance outbound
    rw [h]
  | succ j ih =>
    intro p
    show balance start products prodRows factory (orders ++ [r]) (j + 1) p
      = balance start products prodRows factory orders (j + 1) p
    unfold balance outbound
    rw [h, ih p]

/-- C7: appending an order record whose status is in the excluded set
(quotation, cancel, confirming, double cancel) or whose date is before the
window start leaves the whole computed inventory matrix unchanged: such
records contribute nothing to any balance. -/
theorem claim_C7_filtered_orders_no_effect (start : Int) (prodRows : List ProductRec)
    (factory : List FactoryRec) (orders : List OrderRec) (r : OrderRec)
    (h : statusExcluded r.status = true ∨ r.date < start) :
    inventoryMatrix start prodRows factory (orders ++ [r])
      = inventoryMatrix start prodRows factory orders := by
  have hf := filteredOrders_append_excluded start orders r h
  have hb := balance_append_excluded start (knownParts prodRows) prodRows factory orders r hf
  unfold inventoryMatrix
  apply List.map_congr_left
  intro p _
  have hser : balanceSeries start (knownParts prodRows) prodRows factory (orders ++ [r]) p
      = balanceSeries start (knownParts prodRows) prodRows factory orders p := by
    unfold balanceSeries
    apply List.map_congr_left
    intro i _
    exact hb i p
  rw [hser]

/-- C7 witness: a cancelled order appended to an empty order list. -/
theorem claim_C7_witness :
    (statusExcluded (OrderRec.mk 1 5 10 (some "cancel")).status = true ∨
      (OrderRec.mk 1 5 10 (some "cancel")).date < 0) ∧
    inventoryMatrix 0 [⟨7, QtyField.num 5⟩] [] ([] ++ [OrderRec.mk 1 5 10 (some "cancel")])
      = inventoryMatrix 0 [⟨7, QtyField.num 5⟩] [] [] :=
  ⟨Or.inl (by decide),
    claim_C7_filtered_orders_no_effect 0 [⟨7, QtyField.num 5⟩] [] [] _ (Or.inl (by decide))⟩

/-- C10: an order record with a missing (null) status and a date on or after
the window start survives the status filter unchanged, and its quantity is
added to the outbound aggregate for its (date, part) cell — only the four
listed statuses are excluded, and a missing status raises no error. -/
theorem claim_C10_null_status_counts (start : Int) (orders : List OrderRec)
    (p : PartNo) (d q : Int) (hd : start ≤ d) :
    filteredOrders start (orders ++ [⟨p, d, q, none⟩])
      = filteredOrders start orders ++ [⟨p, d, q, none⟩] ∧
    outbound start (orders ++ [⟨p, d, q, none⟩]) d p
      = outbound start orders d p + q := by
  have hf : filteredOrders start (orders ++ [⟨p, d, q, none⟩])
      = filteredOrders start orders ++ [⟨p, d, q, none⟩] := by
    unfold filteredOrders
    rw [List.filter_append]
    congr 1
    simp [List.filter_cons, statusExcluded, decide_eq_true hd]
  refine ⟨hf, ?_⟩
  unfold outbound
  rw [hf, List.filter_append, List.map_append, List.sum_append]
  simp

/-- C10 witness: a null-status order of 3 units of part 1 on day 0 with
window start 0. -/
theorem claim_C10_witness :
    (0 : Int) ≤ 0 ∧
    (filteredOrders 0 ([] ++ [⟨1, 0, 3, none⟩])
        = filteredOrders 0 [] ++ [⟨1, 0, 3, none⟩] ∧
      outbound 0 ([] ++ [⟨1, 0, 3, none⟩]) 0 1 = outbound 0 [] 0 1 + 3) :=
  ⟨by decide, claim_C10_null_status_counts 0 [] 1 0 3 (by decide)⟩

/-- C6 counterexample: exclusion list `[0]`, many-to-one rule `(main 0,
alias 1)`, raw matrix `[(0, [5]), (1, [3])]`.  Part 0 is a main part named
by the rules with pre-resolution column `[5]`, and alias 1 (column `[3]`)
is folded into it, so the claim demands final column `[5 + 3] = [8]`; the
code first drops the excluded column 0 and then re-seeds it from the alias,
producing `[3]`. -/
theorem claim_C6_counterexample :
    getCol (resolveAliases [0] [] [(0, 1)] [(0, [5]), (1, [3])]) 0 = some [3] ∧
    addSeries [5] [3] = [8] ∧ some ([3] : Series) ≠ some ([8] : Series) := by
  decide

/-- C6 (amended): provided the rule tables are non-degenerate — the
one-to-one free parts and many-to-one alias parts are pairwise distinct,
none of them is a main part of any rule or an excluded part, and the main
part `M` itself is not excluded — the resolved value of column `M` at every
date equals its pre-resolution value (0 when the column was absent) plus
the pre-resolution values of all present free/alias columns folded into
`M`, and every contributing free/alias column is absent from the resolved
matrix. -/
theorem claim_C6_main_column_sum (excl : List PartNo) (o2o m2o : List (PartNo × PartNo))
    (m : StockMatrix) (M : PartNo) (L i : Nat)
    (hu : uniformCols L m) (hi : i < L)
    (hM : M ∈ o2o.map Prod.snd ∨ M ∈ m2o.map Prod.fst)
    (hMe : M ∉ excl)
    (hnd : (o2o.map Prod.fst ++ m2o.map Prod.snd).Nodup)
    (hchain : ∀ x ∈ o2o.map Prod.fst ++ m2o.map Prod.snd,
      x ∉ o2o.map Prod.snd ++ m2o.map Prod.fst)
    (hexcl : ∀ x ∈ o2o.map Prod.fst ++ m2o.map Prod.snd, x ∉ excl) :
    colVal (resolveAliases excl o2o m2o m) M i
      = colVal m M i + contribSum m (contributorsOf o2o m2o M) i ∧
    ∀ x ∈ contributorsOf o2o m2o M, getCol (resolveAliases excl o2o m2o m) x = none := by
  have hndparts := List.nodup_append.mp hnd
  have hndf : (o2o.map Prod.fst).Nodup := hndparts.1
  have hnda : (m2o.map Prod.snd).Nodup := hndparts.2.1
  have hdisj : List.Disjoint (o2o.map Prod.fst) (m2o.map Prod.snd) := hndparts.2.2
  have hMmains : M ∈ o2o.map Prod.snd ++ m2o.map Prod.fst := List.mem_append.mpr hM
  have hMnotFA : M ∉ o2o.map Prod.fst ++ m2o.map Prod.snd := fun h => hchain M h hMmains
  have hMnf : M ∉ o2o.map Prod.fst := fun h => hMnotFA (List.mem_append.mpr (Or.inl h))
  have hMna : M ∉ m2o.map Prod.snd := fun h => hMnotFA (List.mem_append.mpr (Or.inr h))
  have hu1 : uniformCols L (applyExclusions excl m) := uniformCols_applyExclusions L excl m hu
  have hu2 : uniformCols L (o2o.foldl applyOneToOne (applyExclusions excl m)) :=
    uniformCols_o2oFold L o2o _ hu1
  have hfrees_sub : ∀ x ∈ freesOf o2o M, x ∈ o2o.map Prod.fst :=
    fun x hx => mem_map_fst_of_mem_freesOf o2o M x hx
  have halias_sub : ∀ x ∈ aliasesOf m2o M, x ∈ m2o.map Prod.snd :=
    fun x hx => mem_map_snd_of_mem_aliasesOf m2o M x hx
  have hfreeNotMain : ∀ r ∈ o2o, r.1 ∉ o2o.map Prod.snd := by
    intro r hr hmem
    exact hchain r.1 (List.mem_append.mpr (Or.inl (List.mem_map.mpr ⟨r, hr, rfl⟩)))
      (List.mem_append.mpr (Or.inl hmem))
  have hnm2o : ∀ r ∈ m2o, r.2 ∉ m2o.map Prod.fst := by
    intro r hr hmem
    exact hchain r.2 (List.mem_append.mpr (Or.inr (List.mem_map.mpr ⟨r, hr, rfl⟩)))
      (List.mem_append.mpr (Or.inr hmem))
  have hv2 : colVal (o2o.foldl applyOneToOne (applyExclusions excl m)) M i
      = colVal (applyExclusions excl m) M i
        + contribSum (applyExclusions excl m) (freesOf o2o M) i :=
    o2oFold_colVal_main L i M o2o _ hu1 hi hndf hfreeNotMain hMnf
  have hvM1 : getCol (applyExclusions excl m) M = getCol m M :=
    getCol_applyExclusions_notmem excl m M hMe
  have hpresF1 : ∀ x ∈ freesOf o2o M, getCol (applyExclusions excl m) x = getCol m x := by
    intro x hx
    exact getCol_applyExclusions_notmem excl m x
      (hexcl x (List.mem_append.mpr (Or.inl (hfrees_sub x hx))))
  have hpresA1 : ∀ x ∈ aliasesOf m2o M, getCol (applyExclusions excl m) x = getCol m x := by
    intro x hx
    exact getCol_applyExclusions_notmem excl m x
      (hexcl x (List.mem_append.mpr (Or.inr (halias_sub x hx))))
  have hpresA2 : ∀ x ∈ aliasesOf m2o M,
      getCol (o2o.foldl applyOneToOne (applyExclusions excl m)) x
        = getCol (applyExclusions excl m) x := by
    intro x hx
    refine o2oFold_getCol_other o2o _ x ?_
    intro r hr
    constructor
    · intro h2
      exact hdisj (h2 ▸ List.mem_map.mpr ⟨r, hr, rfl⟩) (halias_sub x hx)
    · intro h2
      exact hchain x (List.mem_append.mpr (Or.inr (halias_sub x hx)))
        (List.mem_append.mpr (Or.inl (h2 ▸ List.mem_map.mpr ⟨r, hr, rfl⟩)))
  have hv3 : colVal (applyManyToOne m2o (o2o.foldl applyOneToOne (applyExclusions excl m))) M i
      = colVal (o2o.foldl applyOneToOne (applyExclusions excl m)) M i
        + contribSum (o2o.foldl applyOneToOne (applyExclusions excl m)) (aliasesOf m2o M) i :=
    applyManyToOne_colVal L i m2o M _ hnda hnm2o hMna hu2 hi
  constructor
  · show colVal (applyManyToOne m2o (o2o.foldl applyOneToOne (applyExclusions excl m))) M i = _
    rw [hv3, hv2]
    have e1 : colVal (applyExclusions excl m) M i = colVal m M i := by
      unfold colVal
      rw [hvM1]
    have e2 : contribSum (applyExclusions excl m) (freesOf o2o M) i
        = contribSum m (freesOf o2o M) i :=
      contribSum_congr _ m _ i hpresF1
    have e3 : contribSum (o2o.foldl applyOneToOne (applyExclusions excl m)) (aliasesOf m2o M) i
        = contribSum m (aliasesOf m2o M) i := by
      rw [contribSum_congr _ (applyExclusions excl m) _ i hpresA2]
      exact contribSum_congr _ m _ i hpresA1
    rw [e1, e2, e3]
    unfold contributorsOf
    rw [contribSum_append]
    omega
  · intro x hx
    show getCol (applyManyToOne m2o (o2o.foldl applyOneToOne (applyExclusions excl m))) x = none
    unfold applyManyToOne
    have hxFA : x ∈ o2o.map Prod.fst ++ m2o.map Prod.snd := by
      unfold contributorsOf at hx
      rw [List.mem_append] at hx
      rw [List.mem_append]
      cases hx with
      | inl h2 => exact Or.inl (hfrees_sub x h2)
      | inr h2 => exact Or.inr (halias_sub x h2)
    have hxNotMain : x ∉ o2o.map Prod.snd ++ m2o.map Prod.fst := hchain x hxFA
    have hks : ∀ k ∈ sortNat (m2o.map Prod.fst).dedup, x ≠ k := by
      intro k hk hxk
      exact hxNotMain (List.mem_append.mpr (Or.inr
        (hxk ▸ (List.mem_dedup).mp ((mem_sortNat _ k).mp hk))))
    unfold contributorsOf at hx
    cases List.mem_append.mp hx with
    | inl hxf =>
      have hgone2 : getCol (o2o.foldl applyOneToOne (applyExclusions excl m)) x = none := by
        refine o2oFold_free_gone o2o _ x ?_ ?_
        · obtain ⟨r, hr, hrx⟩ := List.mem_map.mp hxf
          exact ⟨r, List.mem_of_mem_filter hr, hrx⟩
        · intro r hr h2
          exact hxNotMain (List.mem_append.mpr (Or.inl (h2 ▸ List.mem_map.mpr ⟨r, hr, rfl⟩)))
      exact groupsFold_absent m2o x _ _ hgone2 hks
    | inr hxa =>
      have hMm2o : M ∈ m2o.map Prod.fst := by
        obtain ⟨r, hr, _⟩ := List.mem_map.mp hxa
        have hrM : r.1 = M := by simpa using (List.mem_filter.mp hr).2
        exact List.mem_map.mpr ⟨r, List.mem_of_mem_filter hr, hrM⟩
      refine groupsFold_alias_gone m2o x _ _ ?_ hks
      exact ⟨M, (mem_sortNat _ M).mpr ((List.mem_dedup).mpr hMm2o), hxa⟩

/-- C6 witness: one one-to-one rule `(1, 0)` and one many-to-one rule
`(0, 2)` folding columns 1 and 2 into main 0 of the three-column matrix
`[(0, [5]), (1, [6]), (2, [7])]`. -/
theorem claim_C6_witness :
    uniformCols 1 [((0 : PartNo), [(5 : Int)]), (1, [6]), (2, [7])] ∧
    (0 : Nat) < 1 ∧
    ((0 : PartNo) ∈ [((1 : PartNo), (0 : PartNo))].map Prod.snd ∨
      (0 : PartNo) ∈ [((0 : PartNo), (2 : PartNo))].map Prod.fst) ∧
    (0 : PartNo) ∉ ([] : List PartNo) ∧
    ([((1 : PartNo), (0 : PartNo))].map Prod.fst
      ++ [((0 : PartNo), (2 : PartNo))].map Prod.snd).Nodup ∧
    (colVal (resolveAliases [] [(1, 0)] [(0, 2)]
          [((0 : PartNo), [(5 : Int)]), (1, [6]), (2, [7])]) 0 0
        = colVal [((0 : PartNo), [(5 : Int)]), (1, [6]), (2, [7])] 0 0
          + contribSum [((0 : PartNo), [(5 : Int)]), (1, [6]), (2, [7])]
              (contributorsOf [(1, 0)] [(0, 2)] 0) 0 ∧
      ∀ x ∈ contributorsOf [(1, 0)] [(0, 2)] 0,
        getCol (resolveAliases [] [(1, 0)] [(0, 2)]
          [((0 : PartNo), [(5 : Int)]), (1, [6]), (2, [7])]) x = none) :=
  ⟨by unfold uniformCols; decide, by decide, by decide, by decide, by decide,
    claim_C6_main_column_sum [] [(1, 0)] [(0, 2)]
      [((0 : PartNo), [(5 : Int)]), (1, [6]), (2, [7])] 0 1 0
      (by unfold uniformCols; decide) (by decide) (by decide) (by decide) (by decide)
      (by decide) (by decide)⟩

